import Mathlib

/-!
# Verification of the clickhouse-migrations core

A shallow embedding, in Lean 4, of the two core subsystems of the
clickhouse-migrations repository:

* `src/sql-parse.ts` — the string-aware SQL comment stripper, statement
  splitter and `SET`-settings extractor (`SqlParser.processChar`,
  `removeBlockComments`, `removeLineComments`, `splitByDelimiter`,
  `sqlQueries`, `sqlSets`);
* `src/executor.ts` — migration discovery (`getMigrations`), ledger
  validation (`validateAppliedMigrations`) and the migration application
  loop (`applyMigrations`, `executeMigrationQueries`, `recordMigration`).

Strings are modelled as `List Char` (JS strings at the code points the
program manipulates).  Fallible functions return `Except`.  External
collaborators (file system, MD5 digest, the ClickHouse client) are
modelled as oracle functions supplied in an environment record, matching
the specification, which treats them as opaque capabilities.
-/

set_option autoImplicit false

abbrev Str := List Char

/-! ## JS character classes

`jsIsWs` is the ECMAScript `\s` class (WhiteSpace ∪ LineTerminator),
used by the `\s` regex atoms, `String.prototype.trim` and the
`.replace(/\s+/g, ' ')` pass in `sqlQueries`.  `isLineTerm` is the
ECMAScript LineTerminator class, which `.` does not match and which
multiline `^` / `$` anchor around. -/

def jsIsWs (c : Char) : Bool :=
  c = ' ' || c = '\t' || c = '\n' || c = '\r' ||
  c.toNat = 11 || c.toNat = 12 ||
  c.toNat = 0xa0 || c.toNat = 0x1680 ||
  (0x2000 ≤ c.toNat && c.toNat ≤ 0x200a) ||
  c.toNat = 0x2028 || c.toNat = 0x2029 ||
  c.toNat = 0x202f || c.toNat = 0x205f || c.toNat = 0x3000 ||
  c.toNat = 0xfeff

def isLineTerm (c : Char) : Bool :=
  c = '\n' || c = '\r' || c.toNat = 0x2028 || c.toNat = 0x2029

/-- `String.prototype.trim`: drop leading and trailing whitespace. -/
def jsTrim (l : Str) : Str :=
  ((l.dropWhile jsIsWs).reverse.dropWhile jsIsWs).reverse

/-- `.replace(/\s+/g, ' ')`: every maximal whitespace run becomes one
space.  The flag records whether the scan is inside a whitespace run
whose replacement space has already been emitted. -/
def collapseWsAux (inRun : Bool) : Str → Str
  | [] => []
  | c :: rest =>
    if jsIsWs c then
      if inRun then collapseWsAux true rest
      else ' ' :: collapseWsAux true rest
    else c :: collapseWsAux false rest

def collapseWs (l : Str) : Str := collapseWsAux false l

/-- `.split(/\r?\n/)`: split into lines at `\r\n` or `\n` (a lone `\r` is
not a separator). -/
def splitLines : Str → List Str
  | [] => [[]]
  | '\r' :: '\n' :: rest => [] :: splitLines rest
  | '\n' :: rest => [] :: splitLines rest
  | c :: rest =>
    match splitLines rest with
    | [] => [[c]]
    | l :: ls => (c :: l) :: ls

/-- `.join('\n')`. -/
def joinLines (ls : List Str) : Str :=
  match ls with
  | [] => []
  | [l] => l
  | l :: ls => l ++ '\n' :: joinLines ls

/-- ASCII upper-casing, as applied by `toUpperCase()` to the characters the
parser actually inspects. -/
def upcase (l : Str) : Str := l.map Char.toUpper

/-! ## The `SqlParser` string-literal state machine

Embeds the class `SqlParser` of `src/sql-parse.ts`.  The JS field
`stringChar` holds `''` when no delimiter is active; we model it as
`Option Char` (`none` = cleared), so that no content character can
accidentally compare equal to the cleared sentinel. -/

structure PState where
  inString : Bool
  stringChar : Option Char
  escaped : Bool
deriving DecidableEq, Repr

def pstate0 : PState := ⟨false, none, false⟩

/-- `SqlParser.processChar(ch, content, index)`: the returned `Bool` is the
value JS returns (is this character part of a string literal, quotes
included); `next?` is `content[index + 1]` (`none` = `undefined`). -/
def processChar (ch : Char) (next? : Option Char) (s : PState) : Bool × PState :=
  if s.inString then
    if s.escaped then (true, { s with escaped := false })
    else if ch = '\\' then (true, { s with escaped := true })
    else if some ch = s.stringChar then
      -- Handle doubled quote escape: the first quote of a doubled pair is
      -- consumed as escaped; otherwise the string ends here.
      if next? = s.stringChar then (true, { s with escaped := true })
      else (true, { s with inString := false, stringChar := none })
    else (true, s)
  else if ch = '\'' || ch = '"' || ch = '`' then
    (true, { s with inString := true, stringChar := some ch })
  else (false, s)

/-! ## Block comment removal (`removeBlockComments`) -/

/-- The inner scan of `removeBlockComments`: from the character after
`/*`, walk with a fresh `SqlParser` until an un-quoted `*/`; return the
remaining characters after the `*/`, or `none` when the content ends
first.  The terminator test reads the parser state *after* processing the
current character, exactly as `commentParser.isInString()` does. -/
def scanBlockEnd (s : PState) : Str → Option Str
  | [] => none
  | c :: rest =>
    let s' := (processChar c rest.head? s).2
    if !s'.inString && c = '*' && rest.head? = some '/' then some rest.tail
    else scanBlockEnd s' rest

/-- `removeBlockComments` of `src/sql-parse.ts`.  The source's outer
`for` loop advances `i` by at least one per iteration, so the content
length bounds the iteration count; we pass it as a structural fuel
counter (the zero-fuel branch is unreachable: by
`scanBlockEnd_length_le` the remaining content shrinks at least as fast
as the fuel).  Note the source, on reaching end of content while
scanning for `*/`, executes a bare `break` — the output built so far is
returned and the remainder of the content is silently dropped; no error
is raised.  Note also that nothing is emitted in place of a removed
comment. -/
def rbcFuel : Nat → PState → Str → Str
  | 0, _, _ => []
  | _ + 1, _, [] => []
  | fuel + 1, s, c :: rest =>
    let pr := processChar c rest.head? s
    if pr.1 then c :: rbcFuel fuel pr.2 rest
    else if c = '/' && rest.head? = some '*' then
      match scanBlockEnd pstate0 rest.tail with
      | none => []  -- unterminated: silent truncation (`break`)
      | some rem => rbcFuel fuel pr.2 rem
    else c :: rbcFuel fuel pr.2 rest

def removeBlockComments (content : Str) : Str :=
  rbcFuel content.length pstate0 content

/-! ## Line comment removal (`removeLineComments`) -/

inductive ParseErr where
  /-- `throw new Error('Unterminated string literal in SQL')` -/
  | untermString
deriving DecidableEq, Repr

/-- One line of `removeLineComments`: a fresh parser, `--` outside a
string truncates the rest of the line, `#` is a comment starter only when
the output accumulated so far trims to empty; a line ending while still
inside a string literal is a fatal error.  (At a `--` / `#` break the
parser is necessarily outside any string, so the source's post-loop
`isInString` check cannot fire there.) -/
def rlcLine (s : PState) (acc : Str) : Str → Except ParseErr Str
  | [] => if s.inString then .error .untermString else .ok acc
  | c :: rest =>
    let pr := processChar c rest.head? s
    if pr.1 then rlcLine pr.2 (acc ++ [c]) rest
    else if c = '-' && rest.head? = some '-' then .ok acc
    else if c = '#' && jsTrim acc = [] then .ok acc
    else rlcLine pr.2 (acc ++ [c]) rest

def removeLineComments (content : Str) : Except ParseErr Str := do
  let lines ← (splitLines content).mapM (rlcLine pstate0 [])
  return joinLines lines

/-! ## Delimiter splitting (`splitByDelimiter`) -/

/-- The loop of `splitByDelimiter`: accumulate characters, at an
un-quoted delimiter push the trimmed segment when non-empty; at the end
push the trimmed leftover, then fail if still inside a string. -/
def sbdAux (d : Char) (s : PState) (cur : Str) (acc : List Str) :
    Str → Except ParseErr (List Str)
  | [] =>
    let acc' := if jsTrim cur = [] then acc else acc ++ [jsTrim cur]
    if s.inString then .error .untermString else .ok acc'
  | c :: rest =>
    let pr := processChar c rest.head? s
    if pr.1 then sbdAux d pr.2 (cur ++ [c]) acc rest
    else if c = d then
      sbdAux d pr.2 [] (if jsTrim cur = [] then acc else acc ++ [jsTrim cur]) rest
    else sbdAux d pr.2 (cur ++ [c]) acc rest

def splitByDelimiter (content : Str) (d : Char) : Except ParseErr (List Str) :=
  sbdAux d pstate0 [] [] content

/-! ## The SET-line regex of `sqlQueries`

`sqlQueries` erases SET lines with
`.replace(/^\s*SET\s.*(\n|\r\n|\r|$)/gm, '')`.  The pattern is
deterministic: `\s*` cannot usefully backtrack (the literal `S` is not a
whitespace character), `.*` is greedy and stops at a line terminator, at
which point the trailing group always matches (`\n`, `\r\n`, `\r`, or the
multiline `$`, which also accepts a following U+2028/U+2029).  Note the
pattern is case-SENSITIVE: only the uppercase letters `SET` match. -/

/-- The part of the pattern after `\s*`: the literal `SET`, one `\s`
character, the greedy `.*`, then the group `(\n|\r\n|\r|$)`.  On success
returns `(lastConsumed, remaining)` where `lastConsumed` is the final
character the match consumed — needed to decide whether the resume
position is again a `^` position. -/
def matchSetCore : Str → Option (Char × Str)
  | 'S' :: 'E' :: 'T' :: c :: r3 =>
    if jsIsWs c then
      let body := r3.takeWhile (fun d => !isLineTerm d)  -- .* (greedy)
      match r3.dropWhile (fun d => !isLineTerm d) with
      | '\n' :: r5 => some ('\n', r5)
      | '\r' :: '\n' :: r5 => some ('\n', r5)
      | '\r' :: r5 => some ('\r', r5)
      | [] => some ((body.getLast?).getD c, [])          -- $ at end of input
      | t :: r5 => some ((body.getLast?).getD c, t :: r5) -- $ before U+2028/29
    else none
  | _ => none

/-- Try the pattern at one position (which must be a multiline `^`
position): `\s*` is effectively possessive since `S` is not whitespace. -/
def matchSetLine (l : Str) : Option (Char × Str) :=
  matchSetCore (l.dropWhile jsIsWs)

/-- The global (`g`-flag) replace-with-empty driver: walk the content,
attempting the pattern at every multiline `^` position (position 0, or
just after a line terminator); on a match drop the matched characters and
resume right after them.  The scan consumes at least one character per
step (`matchSetLine_length_lt`), so the content length serves as a
structural fuel counter whose zero branch is unreachable. -/
def rslFuel : Nat → Bool → Str → Str
  | 0, _, l => l
  | _ + 1, _, [] => []
  | fuel + 1, atStart, c :: rest =>
    if atStart then
      match matchSetLine (c :: rest) with
      | some (lastC, rem) => rslFuel fuel (isLineTerm lastC) rem
      | none => c :: rslFuel fuel (isLineTerm c) rest
    else c :: rslFuel fuel (isLineTerm c) rest

/-- `.replace(/^\s*SET\s.*(\n|\r\n|\r|$)/gm, '')` of `sqlQueries`. -/
def removeSetLines (l : Str) : Str := rslFuel l.length true l

/-! ## `sqlQueries` and `sqlSets` -/

/-- `sqlQueries` of `src/sql-parse.ts`: strip block comments, then line
comments, erase (uppercase) SET lines, collapse every whitespace run to a
single space, trim, and split on un-quoted `;`.  The `!content` guard
makes the empty string return `[]`. -/
def sqlQueries (content : Str) : Except ParseErr (List Str) :=
  if content = [] then .ok []
  else
    match removeLineComments (removeBlockComments content) with
    | .error e => .error e
    | .ok w =>
      if jsTrim (collapseWs (removeSetLines w)) = [] then .ok []
      else splitByDelimiter (jsTrim (collapseWs (removeSetLines w))) ';'

/-- `value.slice(1, -1)` when the value is wrapped in a matching pair of
double or single quotes. -/
def stripQuotes (v : Str) : Str :=
  if 2 ≤ v.length ∧
      ((v.head? = some '"' ∧ v.getLast? = some '"') ∨
       (v.head? = some '\'' ∧ v.getLast? = some '\'')) then
    (v.drop 1).dropLast
  else v

/-- Find the first `=` outside string literals (a fresh parser scan). -/
def findEqAux (s : PState) (i : Nat) : Str → Option Nat
  | [] => none
  | c :: rest =>
    let pr := processChar c rest.head? s
    if !pr.1 && c = '=' then some i
    else findEqAux pr.2 (i + 1) rest

def findEq (part : Str) : Option Nat := findEqAux pstate0 0 part

/-- JS object property assignment: overwrite in place, else append. -/
def objSet : List (Str × Str) → Str × Str → List (Str × Str)
  | [], kv => [kv]
  | (k, v) :: rest, kv =>
    if k = kv.1 then (k, kv.2) :: rest else (k, v) :: objSet rest kv

/-- `setStatements.join(' ')`. -/
def joinSpace : List Str → Str
  | [] => []
  | [l] => l
  | l :: ls => l ++ ' ' :: joinSpace ls

/-- Parse one `key=value` segment into the accumulating settings object:
split at the first un-quoted `=`, trim both sides, drop the segment when
there is no `=` or the key is empty, strip matching surrounding quotes
from the value. -/
def addSetPair (m : List (Str × Str)) (part : Str) : List (Str × Str) :=
  match findEq part with
  | none => m
  | some i =>
    let key := jsTrim (part.take i)
    let value := stripQuotes (jsTrim (part.drop (i + 1)))
    if key = [] then m else objSet m (key, value)

/-- The `SET `-prefixed lines (trimmed, prefix test on the upper-cased
form, prefix stripped from the original-case trimmed line). -/
def setStatements (w : Str) : List Str :=
  (splitLines w).filterMap (fun line =>
    let t := jsTrim line
    if (upcase t).take 4 = 'S' :: 'E' :: 'T' :: [' '] then some (t.drop 4)
    else none)

/-- `sqlSets` of `src/sql-parse.ts`: strip comments, collect the lines
whose trimmed upper-cased form starts with `SET` and a space (keeping the
original case of the remainder), join them with spaces, split on
un-quoted `;` and parse each segment as `key=value`. -/
def sqlSets (content : Str) : Except ParseErr (List (Str × Str)) :=
  if content = [] then .ok []
  else
    match removeLineComments (removeBlockComments content) with
    | .error e => .error e
    | .ok w =>
      if setStatements w = [] then .ok []
      else
        match splitByDelimiter (joinSpace (setStatements w)) ';' with
        | .error e => .error e
        | .ok parts => .ok (parts.foldl addSetPair [])

/-! ## Migration discovery (`getMigrations` of `src/executor.ts`) -/

structure MigrationBase where
  version : Nat
  file : Str
deriving DecidableEq, Repr

inductive DiscErr where
  /-- `Migration name should start from a non-negative integer …` -/
  | invalidName (file : Str)
  /-- `No migrations in the … migrations directory` -/
  | noMigrations
  /-- `Found duplicate migration version …: …, …` -/
  | duplicate (version : Nat) (file1 file2 : Str)
deriving DecidableEq, Repr

/-- The numeric value of an all-digits version string (what
`Number.parseInt(versionString, 10)` returns on a string that has already
passed the `/^\d+$/` test). -/
def natOfDigits (l : Str) : Nat :=
  l.foldl (fun n c => 10 * n + (c.toNat - 48)) 0

/-- The per-file scan of `getMigrations`: skip entries not ending in
`.sql`; take the substring before the first `_` (`file.split('_')[0]`);
error when it is empty or not all digits (the `NaN` / negative /
non-integer checks of the source are subsumed by the `/^\d+$/` regex
test).  Files are kept in directory-listing order. -/
def parseFiles : List Str → Except DiscErr (List MigrationBase)
  | [] => .ok []
  | f :: rest =>
    if !(('.' :: 's' :: 'q' :: ['l']).isSuffixOf f) then parseFiles rest
    else
      let vs := f.takeWhile (fun c => c ≠ '_')
      if vs = [] then .error (.invalidName f)
      else if !(vs.all Char.isDigit) then .error (.invalidName f)
      else
        match parseFiles rest with
        | .error e => .error e
        | .ok ms => .ok (⟨natOfDigits vs, f⟩ :: ms)

/-- Stable ascending insertion (the JS `sort((m1, m2) => m1.version -
m2.version)` is a stable ascending sort). -/
def insertV (m : MigrationBase) : List MigrationBase → List MigrationBase
  | [] => [m]
  | x :: xs => if m.version < x.version then m :: x :: xs else x :: insertV m xs

def sortV (l : List MigrationBase) : List MigrationBase :=
  l.foldl (fun acc m => insertV m acc) []

/-- The adjacent-duplicate scan over the sorted catalog. -/
def adjDup : List MigrationBase → Option (MigrationBase × MigrationBase)
  | [] => none
  | [_] => none
  | a :: b :: rest =>
    if a.version = b.version then some (a, b) else adjDup (b :: rest)

/-- `getMigrations` of `src/executor.ts`, applied to the directory
listing (the `readdir` result is the external input). -/
def getMigrations (files : List Str) : Except DiscErr (List MigrationBase) :=
  match parseFiles files with
  | .error e => .error e
  | .ok ms =>
    if ms = [] then .error .noMigrations
    else
      match adjDup (sortV ms) with
      | some (a, b) => .error (.duplicate b.version a.file b.file)
      | none => .ok (sortV ms)

/-! ## The migration ledger and the executor (`src/executor.ts`)

External collaborators — the file system (`readFile`), the checksum
digest (`crypto` MD5) and the ClickHouse client (`exec`, `insert`) — are
oracle functions in `RunEnv`, in line with the specification, which
treats them as opaque capabilities.  Side effects (ledger inserts, log
calls, statement executions) are accumulated in `RunState`; a thrown
error is the `Option RunError` component of the result, with the side
effects performed before the throw preserved. -/

structure MigrationRecord where
  version : Nat
  checksum : Str
  migration_name : Str
deriving DecidableEq, Repr

abbrev Settings := List (Str × Str)

structure ExecCall where
  file : Str
  query : Str
  settings : Settings
deriving DecidableEq, Repr

inductive LogEvent where
  /-- `logger.warn('applied migration … has different checksum …')` -/
  | warnDivergent (name : Str)
  /-- `logger.debug('Skipped: … (already applied)')` -/
  | debugSkipped (file : Str)
  /-- `logger.info('Applied: …')` -/
  | infoApplied (file : Str)
  /-- `logger.info('The migration(s) … was successfully applied!')` -/
  | infoAppliedList (files : List Str)
  /-- `logger.info('… migration(s) successfully applied')` -/
  | infoAppliedCount (n : Nat)
  /-- `logger.info('No migrations to apply.')` -/
  | infoNoMigrations
deriving DecidableEq, Repr

inductive RunError where
  /-- `Migration file shouldn't be changed after apply …` (divergent) -/
  | divergent (name : Str)
  /-- `Migration file shouldn't be removed after apply …` (deleted) -/
  | deletedMigration (name : Str)
  /-- `the migrations … has an error …` wrapping the client error -/
  | statementError (file : Str) (msg : Str)
  /-- `Can't insert data into the … table: …` -/
  | insertError (msg : Str)
  /-- a parse error thrown by `sqlQueries` / `sqlSets` -/
  | parseError (e : ParseErr)
deriving DecidableEq, Repr

structure RunEnv where
  /-- `readFile(validatedPath/file)` — content of each migration file. -/
  fs : Str → Str
  /-- `computeChecksum` — the MD5 digest, an opaque external function. -/
  checksumOf : Str → Str
  /-- `client.exec({query, clickhouse_settings})`: `none` = success,
  `some msg` = the client threw with message `msg`. -/
  execRes : Str → Settings → Option Str
  /-- `client.insert` into the ledger table: `none` = success. -/
  insertRes : MigrationRecord → Option Str

structure RunState where
  inserts : List MigrationRecord
  appliedList : List Str
  execed : List ExecCall
  logs : List LogEvent
deriving DecidableEq, Repr

def emptyState : RunState := ⟨[], [], [], []⟩

/-- `new Map()` with `set(row.version, row)` per fetched row: an entry
list in first-insertion order, a later row with the same version
overwriting the value in place. -/
def mapSet (m : List MigrationRecord) (r : MigrationRecord) : List MigrationRecord :=
  match m with
  | [] => [r]
  | a :: rest => if a.version = r.version then r :: rest else a :: mapSet rest r

def buildMap (rows : List MigrationRecord) : List MigrationRecord :=
  rows.foldl mapSet []

/-- `appliedMigrations.get(version)`. -/
def ledLookup (am : List MigrationRecord) (v : Nat) : Option MigrationRecord :=
  am.find? (fun r => r.version = v)

/-- `validateAppliedMigrations`: the first ledger entry (in map iteration
order) whose version has no migration file on disk, if any. -/
def validateApplied (am : List MigrationRecord) (migrations : List MigrationBase) :
    Option Str :=
  (am.find? (fun r => !(migrations.any (fun m => m.version = r.version)))).map
    (·.migration_name)

/-- `{...globalSettings, ...sets}`: file-level settings win. -/
def mergeSettings (gs : Settings) (sets : Settings) : Settings :=
  sets.foldl objSet gs

/-- `executeMigrationQueries`: run the statements in file order through
the client; the first failing statement (which was attempted) stops the
file and wraps the client's message. -/
def execQueries (env : RunEnv) (file : Str) (settings : Settings) :
    List Str → List ExecCall → List ExecCall × Option RunError
  | [], ex => (ex, none)
  | q :: rest, ex =>
    let ex' := ex ++ [⟨file, q, settings⟩]
    match env.execRes q settings with
    | some msg => (ex', some (.statementError file msg))
    | none => execQueries env file settings rest ex'

/-- The per-migration loop of `applyMigrations`, with the fetched ledger
map `am` fixed for the whole run (it is not refreshed between
migrations). -/
def applyLoop (env : RunEnv) (am : List MigrationRecord) (gs : Settings)
    (ab : Bool) : List MigrationBase → RunState → RunState × Option RunError
  | [], st => (st, none)
  | m :: rest, st =>
    let content := env.fs m.file
    let chk := env.checksumOf content
    match ledLookup am m.version with
    | some a =>
      if a.checksum ≠ chk then
        if ab then (st, some (.divergent a.migration_name))
        else
          applyLoop env am gs ab rest
            { st with logs := st.logs ++
                [.warnDivergent a.migration_name, .debugSkipped m.file] }
      else
        applyLoop env am gs ab rest
          { st with logs := st.logs ++ [.debugSkipped m.file] }
    | none =>
      match sqlQueries content with
      | .error e => (st, some (.parseError e))
      | .ok queries =>
        match sqlSets content with
        | .error e => (st, some (.parseError e))
        | .ok sets =>
          let merged := mergeSettings gs sets
          match execQueries env m.file merged queries st.execed with
          | (ex', some err) =>
            ({ st with
                execed := ex',
                logs := st.logs ++
                  (if st.appliedList.isEmpty then []
                   else [.infoAppliedList st.appliedList]) },
             some err)
          | (ex', none) =>
            match env.insertRes ⟨m.version, chk, m.file⟩ with
            | some msg => ({ st with execed := ex' }, some (.insertError msg))
            | none =>
              applyLoop env am gs ab rest
                { st with
                    execed := ex',
                    inserts := st.inserts ++ [⟨m.version, chk, m.file⟩],
                    appliedList := st.appliedList ++ [m.file],
                    logs := st.logs ++ [.infoApplied m.file] }

/-- The post-loop report: count of migrations applied in this invocation,
or `No migrations to apply.`. -/
def finalizeRun : RunState × Option RunError → RunState × Option RunError
  | (st, some e) => (st, some e)
  | (st, none) =>
    ({ st with logs := st.logs ++
        [if st.appliedList.isEmpty then .infoNoMigrations
         else .infoAppliedCount st.appliedList.length] },
     none)

/-- `applyMigrations` of `src/executor.ts`: build the ledger map from the
fetched rows (`applied0`, the external `getAppliedMigrations` result),
fail fast when an applied migration's file was deleted, then walk the
catalog. -/
def applyMigrations (env : RunEnv) (migrations : List MigrationBase)
    (applied0 : List MigrationRecord) (ab : Bool) (gs : Settings) :
    RunState × Option RunError :=
  let am := buildMap applied0
  match validateApplied am migrations with
  | some name => (emptyState, some (.deletedMigration name))
  | none => finalizeRun (applyLoop env am gs ab migrations emptyState)

/-! ## Concrete content helper

Migration contents containing single-quote characters are written with
`~` standing for the quote, to keep the source text readable. -/

def tildeQuoted (s : String) : Str :=
  s.toList.map (fun c => if c = '~' then '\'' else c)

/-! ## Predicates used by the claim statements -/

/-- Catalog entries ordered by version. -/
def versionLE (a b : MigrationBase) : Prop := a.version ≤ b.version

/-- The well-formedness facts `parseFiles` guarantees for each entry. -/
def parsedOK (m : MigrationBase) : Prop :=
  m.file.takeWhile (fun c => c ≠ '_') ≠ [] ∧
  (m.file.takeWhile (fun c => c ≠ '_')).all Char.isDigit = true ∧
  m.version = natOfDigits (m.file.takeWhile (fun c => c ≠ '_')) ∧
  ('.' :: 's' :: 'q' :: ['l']).isSuffixOf m.file = true

/-- The migrations of a catalog slice that have no ledger record. -/
def pendingOf (am : List MigrationRecord) (ms : List MigrationBase) :
    List MigrationBase :=
  ms.filter (fun m => (ledLookup am m.version).isNone)

/-- The ledger row `applyMigrations` writes for a pending migration. -/
def rowOf (env : RunEnv) (m : MigrationBase) : MigrationRecord :=
  ⟨m.version, env.checksumOf (env.fs m.file), m.file⟩

/-- Whether the content begins with the contiguous uppercase letters
`SET`. -/
def startsSET : Str → Bool
  | 'S' :: 'E' :: 'T' :: _ => true
  | _ => false

/-- Whether the content contains the contiguous uppercase letters `SET`
anywhere.  The SET-erasing pattern of `sqlQueries` is case-sensitive, so
a match always consumes such an occurrence; content without one is left
untouched by the erasure. -/
def containsSET : Str → Bool
  | [] => false
  | c :: rest => startsSET (c :: rest) || containsSET rest

/-- No two adjacent whitespace characters. -/
def noTwoWs (a b : Char) : Prop := ¬(jsIsWs a = true ∧ jsIsWs b = true)

/-- The shape `.replace(/\s+/g, ' ')` leaves behind: no adjacent
whitespace pair, and the only whitespace character present is `' '`. -/
def wsCollapsed (l : Str) : Prop :=
  l.Chain' noTwoWs ∧ ∀ c ∈ l, jsIsWs c = true → c = ' '

/-! ## Auxiliary length bounds (these justify the fuel counters) -/

theorem dropWhile_len_le (p : Char → Bool) (l : Str) :
    (l.dropWhile p).length ≤ l.length := by
  induction l with
  | nil => simp
  | cons c rest ih =>
    by_cases h : p c
    · simp only [List.dropWhile_cons, h, if_true]
      simp only [List.length_cons]
      omega
    · simp [List.dropWhile_cons, h]

theorem scanBlockEnd_length_le (s : PState) (l rem : Str)
    (h : scanBlockEnd s l = some rem) : rem.length ≤ l.length := by
  induction l generalizing s with
  | nil => simp [scanBlockEnd] at h
  | cons c rest ih =>
    simp only [scanBlockEnd] at h
    split at h
    · cases h
      cases rest with
      | nil => simp
      | cons d tl => simp; omega
    · exact le_trans (ih _ h) (by simp)

theorem matchSetCore_length_lt (r : Str) (c : Char) (rem : Str)
    (h : matchSetCore r = some (c, rem)) : rem.length < r.length := by
  unfold matchSetCore at h
  split at h
  case h_2 => simp at h
  case h_1 d r3 =>
    split at h
    case isFalse => simp at h
    case isTrue =>
      have hdw : (r3.dropWhile fun d => !isLineTerm d).length ≤ r3.length :=
        dropWhile_len_le _ _
      split at h
      case h_1 r5 heq =>
        rw [heq] at hdw; simp only [List.length_cons] at hdw
        simp only [Option.some.injEq, Prod.mk.injEq] at h
        rw [← h.2]; simp only [List.length_cons]; omega
      case h_2 r5 heq =>
        rw [heq] at hdw; simp only [List.length_cons] at hdw
        simp only [Option.some.injEq, Prod.mk.injEq] at h
        rw [← h.2]; simp only [List.length_cons]; omega
      case h_3 r5 _ heq =>
        rw [heq] at hdw; simp only [List.length_cons] at hdw
        simp only [Option.some.injEq, Prod.mk.injEq] at h
        rw [← h.2]; simp only [List.length_cons]; omega
      case h_4 =>
        simp only [Option.some.injEq, Prod.mk.injEq] at h
        rw [← h.2]; simp only [List.length_nil, List.length_cons]; omega
      case h_5 t r5 _ _ _ heq =>
        rw [heq] at hdw; simp only [List.length_cons] at hdw
        simp only [Option.some.injEq, Prod.mk.injEq] at h
        rw [← h.2]; simp only [List.length_cons]; omega

theorem matchSetLine_length_lt (l : Str) (c : Char) (rem : Str)
    (h : matchSetLine l = some (c, rem)) : rem.length < l.length :=
  lt_of_lt_of_le (matchSetCore_length_lt _ _ _ h) (dropWhile_len_le _ _)

/-! ## Claims about the parser: concrete behaviours -/

/-- C1 (code bug): on `"SELECT 1; /* no end"` — a `/*` outside any
string literal with no matching `*/` before end of content —
`removeBlockComments` silently drops everything from the `/*` on and
`sqlQueries` returns `ok ["SELECT 1"]`: no `Unterminated block comment`
error is raised, contradicting the specification and the repository's
own test suite (`parse.unit.test.ts`, which expects
`sqlQueries(input)` to throw `Unterminated block comment in SQL`). -/
theorem c1_unterminated_block_comment_is_silently_truncated :
    sqlQueries ("SELECT 1; /* no end".toList) =
      .ok ["SELECT 1".toList] ∧
    removeBlockComments ("SELECT 1; /* no end".toList) =
      "SELECT 1; ".toList := by
  constructor <;> rfl

/-- C2 (code bug): removing the block comment from `SELECT/*c*/col`
emits nothing in its place, so the adjacent tokens collide:
`removeBlockComments` yields `SELECTcol` (not `SELECT col`) and
`sqlQueries` returns the collided statement, contradicting the
specification and the repository's own test suite
(`parse.unit.test.ts`, which expects `SELECT column FROM table` for
`SELECT/*comment*/column FROM table;`). -/
theorem c2_block_comment_removal_collides_adjacent_tokens :
    removeBlockComments ("SELECT/*c*/col".toList) = "SELECTcol".toList ∧
    sqlQueries ("SELECT/*c*/col;".toList) = .ok ["SELECTcol".toList] ∧
    sqlQueries ("SELECT/*comment*/column FROM table;".toList) =
      .ok ["SELECTcolumn FROM table".toList] := by
  refine ⟨?_, ?_, ?_⟩ <;> rfl

/-- C3 counterexample: the claim says every line whose trimmed,
case-insensitive prefix is `SET ` both lands in the `sqlSets` mapping
and contributes no executable statement to `sqlQueries`.  On
`"set a = 1;\nSELECT 2;"` the lowercase `set` line is collected by
`sqlSets` (whose prefix test upper-cases the line) yet also returned by
`sqlQueries` as the executable statement `set a = 1`, because the
SET-erasing regex of `sqlQueries` is case-sensitive. -/
theorem c3_lowercase_set_line_is_both_setting_and_statement :
    sqlSets ("set a = 1;\nSELECT 2;".toList) =
      .ok [("a".toList, "1".toList)] ∧
    sqlQueries ("set a = 1;\nSELECT 2;".toList) =
      .ok ["set a = 1".toList, "SELECT 2".toList] := by
  constructor <;> rfl

/-- `matchSetCore` succeeds only where the content begins (after the
pattern's `\s*`) with the literal uppercase letters `SET`. -/
theorem matchSetCore_starts_upper (r : Str) (pr : Char × Str)
    (h : matchSetCore r = some pr) : r.take 3 = 'S' :: 'E' :: ['T'] := by
  unfold matchSetCore at h
  split at h
  case h_1 => rfl
  case h_2 => simp at h

theorem containsSET_cons (c : Char) (rest : Str) :
    containsSET (c :: rest) = (startsSET (c :: rest) || containsSET rest) := by
  rfl

theorem startsSET_false_of_containsSET_false (l : Str)
    (h : containsSET l = false) : startsSET l = false := by
  cases l with
  | nil => rfl
  | cons c rest =>
    rw [containsSET_cons] at h
    exact (Bool.or_eq_false_iff.mp h).1

theorem containsSET_false_tail (c : Char) (rest : Str)
    (h : containsSET (c :: rest) = false) : containsSET rest = false := by
  rw [containsSET_cons] at h
  exact (Bool.or_eq_false_iff.mp h).2

theorem containsSET_false_dropWhile (p : Char → Bool) (l : Str)
    (h : containsSET l = false) : containsSET (l.dropWhile p) = false := by
  induction l with
  | nil => exact h
  | cons c rest ih =>
    rw [List.dropWhile_cons]
    split
    · exact ih (containsSET_false_tail c rest h)
    · exact h

/-- Content with no contiguous uppercase `SET` admits no match of the
SET-line pattern anywhere. -/
theorem matchSetLine_none_of_no_SET (l : Str) (h : containsSET l = false) :
    matchSetLine l = none := by
  rw [matchSetLine]
  cases hm : matchSetCore (l.dropWhile jsIsWs) with
  | none => rfl
  | some pr =>
    exfalso
    have htake := matchSetCore_starts_upper _ _ hm
    have hs : startsSET (l.dropWhile jsIsWs) = false :=
      startsSET_false_of_containsSET_false _ (containsSET_false_dropWhile _ _ h)
    cases hd : l.dropWhile jsIsWs with
    | nil => rw [hd] at htake; simp at htake
    | cons a tl =>
      rw [hd] at htake hs
      cases tl with
      | nil => simp at htake
      | cons b tl2 =>
        cases tl2 with
        | nil => simp at htake
        | cons d tl3 =>
          simp only [List.take_succ_cons, List.take_zero, List.cons.injEq]
            at htake
          obtain ⟨rfl, rfl, rfl, -⟩ := htake
          simp [startsSET] at hs

theorem rslFuel_id (fuel : Nat) :
    ∀ (atStart : Bool) (l : Str), containsSET l = false →
      rslFuel fuel atStart l = l := by
  induction fuel with
  | zero => intro atStart l _; rfl
  | succ n ih =>
    intro atStart l h
    cases l with
    | nil => rfl
    | cons c rest =>
      have hrest := containsSET_false_tail c rest h
      have hm := matchSetLine_none_of_no_SET (c :: rest) h
      cases atStart with
      | true =>
        have hstep : rslFuel (n + 1) true (c :: rest) =
            (match matchSetLine (c :: rest) with
             | some (lastC, rem) => rslFuel n (isLineTerm lastC) rem
             | none => c :: rslFuel n (isLineTerm c) rest) := rfl
        rw [hstep, hm, ih _ rest hrest]
      | false =>
        have hstep : rslFuel (n + 1) false (c :: rest) =
            c :: rslFuel n (isLineTerm c) rest := rfl
        rw [hstep, ih _ rest hrest]

/-- C3 amended: the settings side is case-insensitive while the
statements side is case-sensitive.  For every content: (1) a line's
prefix-stripped text enters the `sqlSets` pipeline exactly when the
upper-cased form of its trimmed first four characters is `SET `;
(2) the SET-erasing matcher of `sqlQueries` only ever fires where the
content, after leading whitespace, carries the literal uppercase
letters `SET`; (3) hence content without a contiguous uppercase `SET`
is left untouched by the erasure, and (4) `sqlQueries` on such content
splits the cleaned content with every lowercase `set` line still in it
— such a line yields an executable statement while (5) its pairs still
feed the settings mapping.  (The counterexample exhibits one input on
which the two sides therefore disagree with the original claim.) -/
theorem c3_set_case_sensitivity_split :
    (∀ w x, x ∈ setStatements w ↔ ∃ line ∈ splitLines w,
        upcase ((jsTrim line).take 4) = 'S' :: 'E' :: 'T' :: [' '] ∧
        x = (jsTrim line).drop 4) ∧
    (∀ l pr, matchSetLine l = some pr →
        (l.dropWhile jsIsWs).take 3 = 'S' :: 'E' :: ['T']) ∧
    (∀ w, containsSET w = false → removeSetLines w = w) ∧
    (∀ content w, content ≠ [] →
        removeLineComments (removeBlockComments content) = .ok w →
        containsSET w = false →
        sqlQueries content =
          (if jsTrim (collapseWs w) = [] then .ok []
           else splitByDelimiter (jsTrim (collapseWs w)) ';')) ∧
    (∀ content w, content ≠ [] →
        removeLineComments (removeBlockComments content) = .ok w →
        ∀ parts, splitByDelimiter (joinSpace (setStatements w)) ';' =
          .ok parts →
        setStatements w ≠ [] →
        sqlSets content = .ok (parts.foldl addSetPair [])) := by
  refine ⟨?_, ?_, ?_, ?_, ?_⟩
  · intro w x
    simp only [setStatements, List.mem_filterMap]
    constructor
    · rintro ⟨line, hline, hf⟩
      split at hf
      next hcond =>
        simp only [Option.some.injEq] at hf
        refine ⟨line, hline, ?_, hf.symm⟩
        rw [upcase, List.map_take]
        exact hcond
      next => exact absurd hf (by simp)
    · rintro ⟨line, hline, hcond, rfl⟩
      refine ⟨line, hline, ?_⟩
      have hc2 : List.take 4 (upcase (jsTrim line)) =
          'S' :: 'E' :: 'T' :: [' '] := by
        rw [upcase] at hcond ⊢
        rw [← List.map_take]
        exact hcond
      rw [if_pos hc2]
  · intro l pr h
    rw [matchSetLine] at h
    exact matchSetCore_starts_upper _ _ h
  · intro w h
    exact rslFuel_id _ _ _ h
  · intro content w hne hw hns
    simp only [sqlQueries, hne, if_false, hw]
    rw [removeSetLines, rslFuel_id _ _ _ hns]
  · intro content w hne hw parts hp hne2
    simp only [sqlSets, hne, if_false, hw, hne2, hp]

/-- Witness for the amended C3 at the counterexample's lowercase
content `"set a = 1;\nSELECT 2;"` (which contains no contiguous
uppercase `SET`): the lowercase line's segment is collected for the
settings mapping, the erasure leaves the content untouched, the
statement split therefore still contains the `set` line, and the
mapping is built from the collected segment; plus a concrete uppercase
line on which the matcher does fire. -/
theorem c3_set_case_sensitivity_split_witness :
    ("a = 1;".toList ∈ setStatements ("set a = 1;\nSELECT 2;".toList)) ∧
    ((("SET x=1\n".toList).dropWhile jsIsWs).take 3 = 'S' :: 'E' :: ['T']) ∧
    removeSetLines ("set a = 1;\nSELECT 2;".toList) =
      "set a = 1;\nSELECT 2;".toList ∧
    sqlQueries ("set a = 1;\nSELECT 2;".toList) =
      (if jsTrim (collapseWs ("set a = 1;\nSELECT 2;".toList)) = []
       then .ok []
       else splitByDelimiter
         (jsTrim (collapseWs ("set a = 1;\nSELECT 2;".toList))) ';') ∧
    sqlSets ("set a = 1;\nSELECT 2;".toList) =
      .ok (["a = 1".toList].foldl addSetPair []) :=
  ⟨(c3_set_case_sensitivity_split.1 _ _).mpr
      ⟨"set a = 1;".toList, by decide, by decide, by decide⟩,
    c3_set_case_sensitivity_split.2.1 ("SET x=1\n".toList) ('\n', []) rfl,
    c3_set_case_sensitivity_split.2.2.1 ("set a = 1;\nSELECT 2;".toList) rfl,
    c3_set_case_sensitivity_split.2.2.2.1 ("set a = 1;\nSELECT 2;".toList)
      ("set a = 1;\nSELECT 2;".toList) (by decide) rfl rfl,
    c3_set_case_sensitivity_split.2.2.2.2 ("set a = 1;\nSELECT 2;".toList)
      ("set a = 1;\nSELECT 2;".toList) (by decide) rfl
      ["a = 1".toList] rfl (by decide)⟩

/-- C7: inside a string literal, an unescaped delimiter character whose
next character is the same delimiter is a doubled-quote escape: the
parser stays inside the string and marks the second quote escaped (it
will be consumed by the `escaped` flag), for every parser state and
delimiter.  Consequently `"SELECT 'it''s ok';"` parses to exactly the
one statement `SELECT 'it''s ok'`, the quoted content untouched. -/
theorem c7_doubled_quote_escape (st : PState) (q : Char)
    (hin : st.inString = true) (hesc : st.escaped = false)
    (hq : st.stringChar = some q) :
    (q ≠ '\\' →
      processChar q (some q) st = (true, { st with escaped := true })) ∧
    sqlQueries (tildeQuoted "SELECT ~it~~s ok~;") =
      .ok [tildeQuoted "SELECT ~it~~s ok~"] := by
  constructor
  · intro hne
    simp [processChar, hin, hesc, hq, hne]
  · rfl

/-! ## C8: discovery order -/

theorem insertV_mem (x m : MigrationBase) (l : List MigrationBase) :
    m ∈ insertV x l ↔ m = x ∨ m ∈ l := by
  induction l with
  | nil => simp [insertV]
  | cons y ys ih =>
    simp only [insertV]
    split
    · simp [List.mem_cons]
    · simp only [List.mem_cons, ih]
      tauto

theorem sortV_mem (m : MigrationBase) (l : List MigrationBase) :
    m ∈ sortV l ↔ m ∈ l := by
  have key : ∀ (l acc : List MigrationBase),
      (m ∈ l.foldl (fun acc m => insertV m acc) acc ↔ m ∈ acc ∨ m ∈ l) := by
    intro l
    induction l with
    | nil => simp
    | cons x xs ih =>
      intro acc
      simp only [List.foldl_cons, ih, insertV_mem, List.mem_cons]
      tauto
  simpa [sortV] using key l []

theorem insertV_pairwise (x : MigrationBase) (l : List MigrationBase)
    (h : l.Pairwise versionLE) : (insertV x l).Pairwise versionLE := by
  induction l with
  | nil => simp [insertV, List.pairwise_singleton]
  | cons y ys ih =>
    rw [List.pairwise_cons] at h
    obtain ⟨hy, hys⟩ := h
    simp only [insertV]
    split
    case isTrue hlt =>
      refine List.Pairwise.cons ?_ (List.Pairwise.cons hy hys)
      intro b hb
      rcases List.mem_cons.mp hb with rfl | hb
      · exact Nat.le_of_lt hlt
      · exact Nat.le_trans (Nat.le_of_lt hlt) (hy b hb)
    case isFalse hge =>
      refine List.Pairwise.cons ?_ (ih hys)
      intro b hb
      rcases (insertV_mem x b ys).mp hb with rfl | hb
      · exact Nat.le_of_not_lt hge
      · exact hy b hb

theorem sortV_pairwise (l : List MigrationBase) :
    (sortV l).Pairwise versionLE := by
  have key : ∀ (l acc : List MigrationBase), acc.Pairwise versionLE →
      (l.foldl (fun acc m => insertV m acc) acc).Pairwise versionLE := by
    intro l
    induction l with
    | nil => exact fun acc h => h
    | cons x xs ih => exact fun acc h => ih _ (insertV_pairwise x acc h)
  exact key l [] List.Pairwise.nil

theorem adjDup_none_chain (l : List MigrationBase)
    (hp : l.Pairwise versionLE) (hd : adjDup l = none) :
    l.Chain' (fun a b => a.version < b.version) := by
  induction l with
  | nil => simp
  | cons a t ih =>
    cases t with
    | nil => simp
    | cons b rest =>
      simp only [adjDup] at hd
      split at hd
      · exact absurd hd (by simp)
      case isFalse hne =>
        rw [List.pairwise_cons] at hp
        obtain ⟨ha, hp'⟩ := hp
        refine List.chain'_cons.mpr ⟨?_, ih hp' hd⟩
        exact Nat.lt_of_le_of_ne (ha b (by simp)) hne

theorem parseFiles_ok_forall (files : List Str) (l : List MigrationBase)
    (h : parseFiles files = .ok l) : ∀ m ∈ l, parsedOK m := by
  induction files generalizing l with
  | nil =>
    simp only [parseFiles, Except.ok.injEq] at h
    subst h; simp
  | cons f rest ih =>
    simp only [parseFiles] at h
    split at h
    · exact ih l h
    case isFalse hsql =>
      split at h
      · exact absurd h (by simp)
      case isFalse hvs =>
        split at h
        · exact absurd h (by simp)
        case isFalse hdig =>
          cases hrest : parseFiles rest with
          | error e => rw [hrest] at h; exact absurd h (by simp)
          | ok ms =>
            rw [hrest] at h
            simp only [Except.ok.injEq] at h
            subst h
            intro m hm
            rcases List.mem_cons.mp hm with rfl | hm
            · refine ⟨hvs, by simpa using hdig, rfl, by simpa using hsql⟩
            · exact ih ms hrest m hm

/-- C8: for every directory listing on which discovery succeeds, the
returned catalog is sorted strictly ascending by version, and each
entry's version is the decimal value of the all-digits run before the
first `_` of its filename (leading zeros permitted, so `002_x.sql` gets
version 2 — see the witness), the filename ending in `.sql`. -/
theorem c8_discovery_sorted_by_parsed_version (files : List Str)
    (l : List MigrationBase) (h : getMigrations files = .ok l) :
    l.Chain' (fun a b => a.version < b.version) ∧ ∀ m ∈ l, parsedOK m := by
  cases hp : parseFiles files with
  | error e => simp only [getMigrations, hp] at h; exact absurd h (by simp)
  | ok ms =>
    simp only [getMigrations, hp] at h
    split at h
    · exact absurd h (by simp)
    · split at h
      · exact absurd h (by simp)
      next hd =>
        simp only [Except.ok.injEq] at h
        subst h
        constructor
        · exact adjDup_none_chain _ (sortV_pairwise ms) hd
        · intro m hm
          exact parseFiles_ok_forall files ms hp m ((sortV_mem m ms).mp hm)

/-- Witness for C8: versions {10, 1, 5, 2} (the 2 spelt with leading
zeros as `002_x.sql`) are returned in the order [1, 2, 5, 10]. -/
theorem c8_discovery_sorted_witness :
    getMigrations
        ["10_a.sql".toList, "1_b.sql".toList, "002_x.sql".toList,
         "5_c.sql".toList] =
      .ok [⟨1, "1_b.sql".toList⟩, ⟨2, "002_x.sql".toList⟩,
           ⟨5, "5_c.sql".toList⟩, ⟨10, "10_a.sql".toList⟩] ∧
    ([⟨1, "1_b.sql".toList⟩, ⟨2, "002_x.sql".toList⟩,
      ⟨5, "5_c.sql".toList⟩,
      (⟨10, "10_a.sql".toList⟩ : MigrationBase)]).Chain'
        (fun a b => a.version < b.version) ∧
    ∀ m ∈ [⟨1, "1_b.sql".toList⟩, ⟨2, "002_x.sql".toList⟩,
      ⟨5, "5_c.sql".toList⟩, (⟨10, "10_a.sql".toList⟩ : MigrationBase)],
      parsedOK m := by
  refine ⟨by rfl, ?_⟩
  have h := c8_discovery_sorted_by_parsed_version
    ["10_a.sql".toList, "1_b.sql".toList, "002_x.sql".toList, "5_c.sql".toList]
    [⟨1, "1_b.sql".toList⟩, ⟨2, "002_x.sql".toList⟩,
     ⟨5, "5_c.sql".toList⟩, ⟨10, "10_a.sql".toList⟩] (by rfl)
  exact h

/-! ## C9: deleted migrations are always fatal -/

theorem mapSet_version_mem (acc : List MigrationRecord) (r : MigrationRecord)
    (v : Nat) :
    (∃ x ∈ mapSet acc r, x.version = v) ↔
      (∃ x ∈ acc, x.version = v) ∨ v = r.version := by
  induction acc with
  | nil => simp [mapSet, eq_comm]
  | cons a rest ih =>
    simp only [mapSet]
    split
    case isTrue hv =>
      constructor
      · rintro ⟨x, hx, rfl⟩
        rcases List.mem_cons.mp hx with rfl | hx
        · right; rfl
        · exact Or.inl ⟨x, List.mem_cons_of_mem a hx, rfl⟩
      · rintro (⟨x, hx, rfl⟩ | rfl)
        · rcases List.mem_cons.mp hx with rfl | hx
          · exact ⟨r, List.mem_cons_self _ _, hv.symm⟩
          · exact ⟨x, List.mem_cons_of_mem r hx, rfl⟩
        · exact ⟨r, List.mem_cons_self _ _, rfl⟩
    case isFalse hv =>
      constructor
      · rintro ⟨x, hx, rfl⟩
        rcases List.mem_cons.mp hx with rfl | hx
        · exact Or.inl ⟨x, List.mem_cons_self _ _, rfl⟩
        · rcases ih.mp ⟨x, hx, rfl⟩ with ⟨y, hy, hv'⟩ | h
          · exact Or.inl ⟨y, List.mem_cons_of_mem a hy, hv'⟩
          · exact Or.inr h
      · rintro (⟨x, hx, rfl⟩ | rfl)
        · rcases List.mem_cons.mp hx with rfl | hx
          · exact ⟨x, List.mem_cons_self _ _, rfl⟩
          · rcases ih.mpr (Or.inl ⟨x, hx, rfl⟩) with ⟨y, hy, hv'⟩
            exact ⟨y, List.mem_cons_of_mem a hy, hv'⟩
        · rcases ih.mpr (Or.inr rfl) with ⟨y, hy, hv'⟩
          exact ⟨y, List.mem_cons_of_mem a hy, hv'⟩

theorem buildMap_version_mem (rows : List MigrationRecord) (v : Nat) :
    (∃ x ∈ buildMap rows, x.version = v) ↔ ∃ x ∈ rows, x.version = v := by
  have key : ∀ (rows acc : List MigrationRecord),
      ((∃ x ∈ rows.foldl mapSet acc, x.version = v) ↔
        (∃ x ∈ acc, x.version = v) ∨ ∃ x ∈ rows, x.version = v) := by
    intro rows
    induction rows with
    | nil => simp
    | cons r rest ih =>
      intro acc
      simp only [List.foldl_cons, ih, mapSet_version_mem, List.mem_cons]
      constructor
      · rintro ((h | rfl) | h)
        · exact Or.inl h
        · exact Or.inr ⟨r, Or.inl rfl, rfl⟩
        · rcases h with ⟨x, hx, hv⟩
          exact Or.inr ⟨x, Or.inr hx, hv⟩
      · rintro (h | ⟨x, (rfl | hx), hv⟩)
        · exact Or.inl (Or.inl h)
        · exact Or.inl (Or.inr hv.symm)
        · exact Or.inr ⟨x, hx, hv⟩
  simpa [buildMap] using key rows []

/-- C9: whenever the fetched ledger contains a record whose version has
no corresponding migration file in the catalog, the run fails with the
deleted-migration error — naming a recorded migration whose file is
missing — before any statement is executed or any ledger row written
(`emptyState`), for both values of `abortDivergent`. -/
theorem c9_deleted_migration_always_fatal (env : RunEnv)
    (migrations : List MigrationBase) (applied0 : List MigrationRecord)
    (ab : Bool) (gs : Settings) (r : MigrationRecord) (hr : r ∈ applied0)
    (hmiss : ∀ m ∈ migrations, m.version ≠ r.version) :
    ∃ name,
      applyMigrations env migrations applied0 ab gs =
        (emptyState, some (.deletedMigration name)) ∧
      ∃ r2 ∈ buildMap applied0, r2.migration_name = name ∧
        ∀ m ∈ migrations, m.version ≠ r2.version := by
  have hex : ∃ x ∈ buildMap applied0, x.version = r.version :=
    (buildMap_version_mem applied0 r.version).mpr ⟨r, hr, rfl⟩
  obtain ⟨x, hx, hxv⟩ := hex
  have hpred : (buildMap applied0).find?
      (fun r => !(migrations.any (fun m => m.version = r.version))) |>.isSome := by
    rw [List.find?_isSome]
    refine ⟨x, hx, ?_⟩
    simp only [Bool.not_eq_true', List.any_eq_false, decide_eq_true_eq]
    intro m hm
    rw [hxv]
    exact hmiss m hm
  obtain ⟨y, hy⟩ := Option.isSome_iff_exists.mp hpred
  have hymem := List.mem_of_find?_eq_some hy
  have hyprop := List.find?_some hy
  simp only [Bool.not_eq_true', List.any_eq_false, decide_eq_true_eq] at hyprop
  refine ⟨y.migration_name, ?_, y, hymem, rfl, fun m hm => hyprop m hm⟩
  have hval : validateApplied (buildMap applied0) migrations =
      some y.migration_name := by
    simp only [validateApplied, hy]
    rfl
  simp only [applyMigrations, hval]

/-- Witness for C9: a ledger row for version 9 named `9_z.sql`, catalog
containing only version 1. -/
theorem c9_deleted_migration_witness :
    ∃ name,
      applyMigrations
          ⟨fun _ => "SELECT 1;".toList, fun c => c, fun _ _ => none,
           fun _ => none⟩
          [⟨1, "1_a.sql".toList⟩]
          [⟨9, "X".toList, "9_z.sql".toList⟩] true [] =
        (emptyState, some (.deletedMigration name)) ∧
      ∃ r2 ∈ buildMap [⟨9, "X".toList, "9_z.sql".toList⟩],
        r2.migration_name = name ∧
        ∀ m ∈ [(⟨1, "1_a.sql".toList⟩ : MigrationBase)],
          m.version ≠ r2.version :=
  c9_deleted_migration_always_fatal _ _ _ true []
    ⟨9, "X".toList, "9_z.sql".toList⟩ (by simp) (by decide)

/-! ## The run decomposes over the catalog -/

theorem applyLoop_append (env : RunEnv) (am : List MigrationRecord)
    (gs : Settings) (ab : Bool) (xs ys : List MigrationBase) (st : RunState) :
    applyLoop env am gs ab (xs ++ ys) st =
      match applyLoop env am gs ab xs st with
      | (st', none) => applyLoop env am gs ab ys st'
      | (st', some e) => (st', some e) := by
  induction xs generalizing st with
  | nil => simp [applyLoop]
  | cons m rest ih =>
    cases hlk : ledLookup am m.version with
    | some a =>
      by_cases hc : a.checksum = env.checksumOf (env.fs m.file)
      · simp only [List.cons_append, applyLoop, hlk, hc]
        simp only [ne_eq, not_true_eq_false, if_false]
        exact ih _
      · cases ab with
        | true => simp [List.cons_append, applyLoop, hlk, hc]
        | false =>
          simp only [List.cons_append, applyLoop, hlk]
          simp only [ne_eq, hc, not_false_eq_true, if_true, Bool.false_eq_true,
            if_false]
          exact ih _
    | none =>
      cases hq : sqlQueries (env.fs m.file) with
      | error e => simp [List.cons_append, applyLoop, hlk, hq]
      | ok queries =>
        cases hs : sqlSets (env.fs m.file) with
        | error e => simp [List.cons_append, applyLoop, hlk, hq, hs]
        | ok sets =>
          cases hex : execQueries env m.file (mergeSettings gs sets) queries
              st.execed with
          | mk ex' err =>
            cases err with
            | some e => simp [List.cons_append, applyLoop, hlk, hq, hs, hex]
            | none =>
              cases hins : env.insertRes
                  ⟨m.version, env.checksumOf (env.fs m.file), m.file⟩ with
              | some msg =>
                simp [List.cons_append, applyLoop, hlk, hq, hs, hex, hins]
              | none =>
                simp only [List.cons_append, applyLoop, hlk, hq, hs, hex, hins]
                exact ih _

/-! ## C4: divergent checksums abort or warn -/

/-- C4: when the run reaches a migration `m` holding a ledger record `a`
whose stored checksum differs from the checksum of the current file
content, then with `abortDivergent = true` the whole run stops there
with the divergence error naming the recorded migration and no further
side effects, and with `abortDivergent = false` a warning is logged, the
migration is skipped exactly like an already-applied one (no statement
executed, no ledger row written: `inserts` and `execed` are unchanged in
the continuation state) and the run continues with the remaining
migrations. -/
theorem c4_divergent_checksum_abort_or_warn (env : RunEnv)
    (pre post : List MigrationBase) (m : MigrationBase)
    (applied0 : List MigrationRecord) (ab : Bool) (gs : Settings)
    (st : RunState) (a : MigrationRecord)
    (hv : validateApplied (buildMap applied0) (pre ++ m :: post) = none)
    (hpre : applyLoop env (buildMap applied0) gs ab pre emptyState = (st, none))
    (ha : ledLookup (buildMap applied0) m.version = some a)
    (hc : a.checksum ≠ env.checksumOf (env.fs m.file)) :
    (ab = true →
      applyMigrations env (pre ++ m :: post) applied0 true gs =
        (st, some (.divergent a.migration_name))) ∧
    (ab = false →
      applyMigrations env (pre ++ m :: post) applied0 false gs =
        finalizeRun (applyLoop env (buildMap applied0) gs false post
          { st with logs := st.logs ++
              [.warnDivergent a.migration_name, .debugSkipped m.file] })) := by
  constructor
  · rintro rfl
    simp only [applyMigrations, hv, applyLoop_append, hpre, applyLoop, ha]
    simp only [ne_eq, hc, not_false_eq_true, if_true, finalizeRun]
  · rintro rfl
    simp only [applyMigrations, hv, applyLoop_append, hpre, applyLoop, ha]
    simp only [ne_eq, hc, not_false_eq_true, if_true, Bool.false_eq_true,
      if_false]

/-- Witness for C4 with `abortDivergent = true`: a single migration of
version 1 whose ledger checksum `X` differs from the current content
checksum. -/
theorem c4_divergent_checksum_witness :
    (true = true →
      applyMigrations
          ⟨fun _ => "SELECT 1;".toList, fun c => c, fun _ _ => none,
           fun _ => none⟩
          ([] ++ ⟨1, "1_a.sql".toList⟩ :: [])
          [⟨1, "X".toList, "1_a.sql".toList⟩] true [] =
        (emptyState, some (.divergent "1_a.sql".toList))) ∧
    (true = false →
      applyMigrations
          ⟨fun _ => "SELECT 1;".toList, fun c => c, fun _ _ => none,
           fun _ => none⟩
          ([] ++ ⟨1, "1_a.sql".toList⟩ :: [])
          [⟨1, "X".toList, "1_a.sql".toList⟩] false [] =
        finalizeRun (applyLoop
          ⟨fun _ => "SELECT 1;".toList, fun c => c, fun _ _ => none,
           fun _ => none⟩
          (buildMap [⟨1, "X".toList, "1_a.sql".toList⟩]) [] false []
          { emptyState with logs := emptyState.logs ++
              [.warnDivergent "1_a.sql".toList,
               .debugSkipped "1_a.sql".toList] })) :=
  c4_divergent_checksum_abort_or_warn
    ⟨fun _ => "SELECT 1;".toList, fun c => c, fun _ _ => none, fun _ => none⟩
    [] [] ⟨1, "1_a.sql".toList⟩ [⟨1, "X".toList, "1_a.sql".toList⟩] true []
    emptyState ⟨1, "X".toList, "1_a.sql".toList⟩ rfl rfl rfl (by decide)

/-! ## C5: partial failure -/

/-- A loop segment that finishes without error records exactly its
pending migrations, in order, in the ledger and the applied list. -/
theorem applyLoop_ok_state (env : RunEnv) (am : List MigrationRecord)
    (gs : Settings) (ab : Bool) (ms : List MigrationBase) (st st' : RunState)
    (h : applyLoop env am gs ab ms st = (st', none)) :
    st'.inserts = st.inserts ++ (pendingOf am ms).map (rowOf env) ∧
    st'.appliedList = st.appliedList ++ (pendingOf am ms).map (·.file) := by
  induction ms generalizing st with
  | nil =>
    simp only [applyLoop, Prod.mk.injEq] at h
    rw [← h.1]
    simp [pendingOf]
  | cons m rest ih =>
    have hpend_skip : (ledLookup am m.version).isSome →
        pendingOf am (m :: rest) = pendingOf am rest := by
      intro hsome
      simp [pendingOf, List.filter_cons, Option.isNone_iff_eq_none,
        Option.isSome_iff_exists] at hsome ⊢
      obtain ⟨a, ha⟩ := hsome
      simp [ha]
    cases hlk : ledLookup am m.version with
    | some a =>
      have hpd := hpend_skip (by simp [hlk])
      by_cases hc : a.checksum = env.checksumOf (env.fs m.file)
      · simp only [applyLoop, hlk, ne_eq, hc, not_true_eq_false, if_false] at h
        have := ih _ h
        simpa [hpd] using this
      · cases ab with
        | true =>
          simp only [applyLoop, hlk, ne_eq, hc, not_false_eq_true, if_true] at h
          exact absurd h (by simp)
        | false =>
          simp only [applyLoop, hlk, ne_eq, hc, not_false_eq_true, if_true,
            Bool.false_eq_true, if_false] at h
          have := ih _ h
          simpa [hpd] using this
    | none =>
      have hpd : pendingOf am (m :: rest) = m :: pendingOf am rest := by
        simp [pendingOf, List.filter_cons, hlk]
      cases hq : sqlQueries (env.fs m.file) with
      | error e =>
        simp only [applyLoop, hlk, hq] at h
        exact absurd h (by simp)
      | ok queries =>
        cases hs : sqlSets (env.fs m.file) with
        | error e =>
          simp only [applyLoop, hlk, hq, hs] at h
          exact absurd h (by simp)
        | ok sets =>
          cases hex : execQueries env m.file (mergeSettings gs sets) queries
              st.execed with
          | mk ex' err =>
            cases err with
            | some e =>
              simp only [applyLoop, hlk, hq, hs, hex] at h
              exact absurd h (by simp)
            | none =>
              cases hins : env.insertRes
                  ⟨m.version, env.checksumOf (env.fs m.file), m.file⟩ with
              | some msg =>
                simp only [applyLoop, hlk, hq, hs, hex, hins] at h
                exact absurd h (by simp)
              | none =>
                simp only [applyLoop, hlk, hq, hs, hex, hins] at h
                have := ih _ h
                simp only [hpd, List.map_cons] at *
                rw [this.1, this.2]
                simp [rowOf]

/-- `executeMigrationQueries` on a statement list whose first failure is
`qf`: every statement up to and including `qf` is attempted, the client
error is wrapped, nothing after `qf` is attempted. -/
theorem execQueries_first_failure (env : RunEnv) (file : Str) (s : Settings)
    (qpre qpost : List Str) (qf msg : Str) (ex : List ExecCall)
    (hok : ∀ q ∈ qpre, env.execRes q s = none)
    (hfail : env.execRes qf s = some msg) :
    execQueries env file s (qpre ++ qf :: qpost) ex =
      (ex ++ (qpre ++ [qf]).map (fun q => ⟨file, q, s⟩),
       some (.statementError file msg)) := by
  induction qpre generalizing ex with
  | nil => simp [execQueries, hfail]
  | cons q0 qs ih =>
    have h0 : env.execRes q0 s = none := hok q0 (by simp)
    simp only [List.cons_append, execQueries, h0, List.append_eq]
    rw [ih _ (fun q hq => hok q (List.mem_cons_of_mem _ hq))]
    simp

/-- C5: when the run reaches a pending migration `m` one of whose
statements fails (`qf`, after the successful prefix `qpre`), the run
stops with the statement error naming `m`'s file and wrapping the
client's message; the migrations applied earlier in this run are
reported in the `infoAppliedList` log event accompanying the thrown
error; exactly the pending migrations before `m` are recorded in the
ledger (`st.inserts`); and nothing after `qf` — in particular no later
migration — is ever attempted (the exec trace ends at `qf`). -/
theorem c5_statement_failure_stops_run (env : RunEnv)
    (pre post : List MigrationBase) (m : MigrationBase)
    (applied0 : List MigrationRecord) (ab : Bool) (gs : Settings)
    (st : RunState) (queries qpre qpost : List Str) (qf msg : Str)
    (sets : Settings)
    (hv : validateApplied (buildMap applied0) (pre ++ m :: post) = none)
    (hpre : applyLoop env (buildMap applied0) gs ab pre emptyState = (st, none))
    (hm : ledLookup (buildMap applied0) m.version = none)
    (hq : sqlQueries (env.fs m.file) = .ok queries)
    (hs : sqlSets (env.fs m.file) = .ok sets)
    (hsplit : queries = qpre ++ qf :: qpost)
    (hok : ∀ q ∈ qpre, env.execRes q (mergeSettings gs sets) = none)
    (hfail : env.execRes qf (mergeSettings gs sets) = some msg) :
    applyMigrations env (pre ++ m :: post) applied0 ab gs =
      ({ st with
          execed := st.execed ++ (qpre ++ [qf]).map
            (fun q => ⟨m.file, q, mergeSettings gs sets⟩),
          logs := st.logs ++
            (if st.appliedList.isEmpty then []
             else [.infoAppliedList st.appliedList]) },
       some (.statementError m.file msg)) ∧
    st.inserts = (pendingOf (buildMap applied0) pre).map (rowOf env) ∧
    st.appliedList = (pendingOf (buildMap applied0) pre).map (·.file) := by
  have hstate := applyLoop_ok_state env (buildMap applied0) gs ab pre
    emptyState st hpre
  simp only [emptyState, List.nil_append] at hstate
  refine ⟨?_, hstate.1, hstate.2⟩
  simp only [applyMigrations, hv, applyLoop_append, hpre, applyLoop, hm, hq, hs]
  rw [hsplit, execQueries_first_failure env m.file (mergeSettings gs sets)
    qpre qpost qf msg st.execed hok hfail]
  rfl

/-- Witness for C5: three pending migrations, the second one's statement
fails — only the first is recorded, the third is never attempted. -/
theorem c5_statement_failure_witness :
    applyMigrations
        ⟨fun f => if f = "1_a.sql".toList then "SELECT 1;".toList
                  else if f = "2_b.sql".toList then "SELECT 2;".toList
                  else "SELECT 3;".toList,
         fun c => c,
         fun q _ => if q = "SELECT 2".toList then some "boom".toList else none,
         fun _ => none⟩
        ([⟨1, "1_a.sql".toList⟩] ++ ⟨2, "2_b.sql".toList⟩ ::
          [⟨3, "3_c.sql".toList⟩]) [] true [] =
      ({ inserts := [⟨1, "SELECT 1;".toList, "1_a.sql".toList⟩],
         appliedList := ["1_a.sql".toList],
         execed :=
           [⟨"1_a.sql".toList, "SELECT 1".toList, []⟩,
            ⟨"2_b.sql".toList, "SELECT 2".toList, []⟩],
         logs := [.infoApplied "1_a.sql".toList,
                  .infoAppliedList ["1_a.sql".toList]] },
       some (.statementError "2_b.sql".toList "boom".toList)) := by
  have h := c5_statement_failure_stops_run
    ⟨fun f => if f = "1_a.sql".toList then "SELECT 1;".toList
              else if f = "2_b.sql".toList then "SELECT 2;".toList
              else "SELECT 3;".toList,
     fun c => c,
     fun q _ => if q = "SELECT 2".toList then some "boom".toList else none,
     fun _ => none⟩
    [⟨1, "1_a.sql".toList⟩] [⟨3, "3_c.sql".toList⟩] ⟨2, "2_b.sql".toList⟩
    [] true []
    ⟨[⟨1, "SELECT 1;".toList, "1_a.sql".toList⟩], ["1_a.sql".toList],
     [⟨"1_a.sql".toList, "SELECT 1".toList, []⟩],
     [.infoApplied "1_a.sql".toList]⟩
    ["SELECT 2".toList] [] [] ("SELECT 2".toList) ("boom".toList) []
    rfl rfl rfl rfl rfl rfl (by simp) rfl
  rw [h.1]
  rfl

/-! ## C6: idempotence -/

theorem mapSet_fresh (acc : List MigrationRecord) (r : MigrationRecord)
    (h : ∀ x ∈ acc, x.version ≠ r.version) : mapSet acc r = acc ++ [r] := by
  induction acc with
  | nil => simp [mapSet]
  | cons a rest ih =>
    have ha : a.version ≠ r.version := h a (by simp)
    simp only [mapSet, ha, if_false, List.cons_append, List.cons.injEq,
      true_and]
    exact ih (fun x hx => h x (List.mem_cons_of_mem a hx))

theorem foldl_mapSet_fresh (extra : List MigrationRecord) :
    ∀ acc : List MigrationRecord,
    (∀ r ∈ extra, ∀ x ∈ acc, x.version ≠ r.version) →
    (extra.map (·.version)).Nodup →
    extra.foldl mapSet acc = acc ++ extra := by
  induction extra with
  | nil => simp
  | cons r0 rest ih =>
    intro acc hfresh hnd
    rw [List.map_cons, List.nodup_cons] at hnd
    have h0 : mapSet acc r0 = acc ++ [r0] :=
      mapSet_fresh acc r0 (hfresh r0 (by simp))
    simp only [List.foldl_cons, h0]
    rw [ih (acc ++ [r0]) ?_ hnd.2]
    · simp
    · intro r hr x hx
      rcases List.mem_append.mp hx with hx | hx
      · exact hfresh r (List.mem_cons_of_mem r0 hr) x hx
      · rcases List.mem_singleton.mp hx with rfl
        intro hveq
        exact hnd.1 (hveq ▸ List.mem_map_of_mem (·.version) hr)

theorem buildMap_append_fresh (rows extra : List MigrationRecord)
    (h : ∀ r ∈ extra, ∀ x ∈ buildMap rows, x.version ≠ r.version)
    (hnd : (extra.map (·.version)).Nodup) :
    buildMap (rows ++ extra) = buildMap rows ++ extra := by
  rw [buildMap, List.foldl_append]
  exact foldl_mapSet_fresh extra (buildMap rows) h hnd

/-- A success loop never passes a migration holding a divergent ledger
record with `abortDivergent = true`. -/
theorem applyLoop_ok_no_divergence (env : RunEnv) (am : List MigrationRecord)
    (gs : Settings) (ab : Bool) (ms : List MigrationBase) (st st' : RunState)
    (h : applyLoop env am gs ab ms st = (st', none)) :
    ∀ m ∈ ms, ∀ a, ledLookup am m.version = some a →
      (a.checksum = env.checksumOf (env.fs m.file) ∨ ab = false) := by
  induction ms generalizing st with
  | nil => simp
  | cons m rest ih =>
    intro m' hm' a ha
    cases hlk : ledLookup am m.version with
    | some a0 =>
      by_cases hc : a0.checksum = env.checksumOf (env.fs m.file)
      · simp only [applyLoop, hlk, ne_eq, hc, not_true_eq_false, if_false] at h
        rcases List.mem_cons.mp hm' with rfl | hm'
        · rw [hlk] at ha
          cases ha
          exact Or.inl hc
        · exact ih _ h m' hm' a ha
      · cases ab with
        | true =>
          simp only [applyLoop, hlk, ne_eq, hc, not_false_eq_true, if_true]
            at h
          exact absurd h (by simp)
        | false => exact Or.inr rfl
    | none =>
      cases hq : sqlQueries (env.fs m.file) with
      | error e =>
        simp only [applyLoop, hlk, hq] at h
        exact absurd h (by simp)
      | ok queries =>
        cases hs : sqlSets (env.fs m.file) with
        | error e =>
          simp only [applyLoop, hlk, hq, hs] at h
          exact absurd h (by simp)
        | ok sets =>
          cases hex : execQueries env m.file (mergeSettings gs sets) queries
              st.execed with
          | mk ex' err =>
            cases err with
            | some e =>
              simp only [applyLoop, hlk, hq, hs, hex] at h
              exact absurd h (by simp)
            | none =>
              cases hins : env.insertRes
                  ⟨m.version, env.checksumOf (env.fs m.file), m.file⟩ with
              | some msg =>
                simp only [applyLoop, hlk, hq, hs, hex, hins] at h
                exact absurd h (by simp)
              | none =>
                simp only [applyLoop, hlk, hq, hs, hex, hins] at h
                rcases List.mem_cons.mp hm' with rfl | hm'
                · rw [hlk] at ha
                  cases ha
                · exact ih _ h m' hm' a ha

/-- When every migration holds a ledger record that matches its checksum
(or `abortDivergent = false`), the loop only skips: no execution, no
insert, no applied entry. -/
theorem applyLoop_all_skipped (env : RunEnv) (am : List MigrationRecord)
    (gs : Settings) (ab : Bool) (ms : List MigrationBase)
    (hcov : ∀ m ∈ ms, ∃ r, ledLookup am m.version = some r ∧
      (r.checksum = env.checksumOf (env.fs m.file) ∨ ab = false)) :
    ∀ st, ∃ st', applyLoop env am gs ab ms st = (st', none) ∧
      st'.inserts = st.inserts ∧ st'.execed = st.execed ∧
      st'.appliedList = st.appliedList := by
  induction ms with
  | nil => exact fun st => ⟨st, rfl, rfl, rfl, rfl⟩
  | cons m rest ih =>
    intro st
    obtain ⟨r, hr, hror⟩ := hcov m (by simp)
    have hrest := ih (fun m' hm' => hcov m' (List.mem_cons_of_mem m hm'))
    by_cases hc : r.checksum = env.checksumOf (env.fs m.file)
    · obtain ⟨st', h', e1, e2, e3⟩ :=
        hrest { st with logs := st.logs ++ [.debugSkipped m.file] }
      refine ⟨st', ?_, e1, e2, e3⟩
      simp only [applyLoop, hr, ne_eq, hc, not_true_eq_false, if_false]
      exact h'
    · have hab : ab = false := hror.resolve_left hc
      subst hab
      obtain ⟨st', h', e1, e2, e3⟩ :=
        hrest { st with logs := st.logs ++
          [.warnDivergent r.migration_name, .debugSkipped m.file] }
      refine ⟨st', ?_, e1, e2, e3⟩
      simp only [applyLoop, hr, ne_eq, hc, not_false_eq_true, if_true,
        Bool.false_eq_true, if_false]
      exact h'

/-- In a version-Nodup pending list, lookup among the written rows finds
exactly the row of the pending migration itself. -/
theorem find_rowOf_of_nodup (env : RunEnv) (pend : List MigrationBase)
    (m : MigrationBase) (hm : m ∈ pend)
    (hnd : (pend.map (·.version)).Nodup) :
    (pend.map (rowOf env)).find? (fun r => r.version = m.version) =
      some (rowOf env m) := by
  induction pend with
  | nil => simp at hm
  | cons p rest ih =>
    rw [List.map_cons, List.nodup_cons] at hnd
    rcases List.mem_cons.mp hm with rfl | hm
    · simp [List.find?_cons, rowOf]
    · have hne : p.version ≠ m.version := by
        intro hveq
        exact hnd.1 (hveq ▸ List.mem_map_of_mem (·.version) hm)
      have hd : (decide ((rowOf env p).version = m.version)) = false := by
        simp [rowOf, hne]
      simp only [List.map_cons, List.find?_cons, hd]
      exact ih hm hnd.2

/-- C6: a run that completes without error, followed by a second run
against the same directory with the ledger as the first run left it
(original rows plus the rows the first run inserted), applies zero
migrations: the second run succeeds, writes no ledger row, executes no
statement, reports no applied migration, and ends with the
`No migrations to apply.` message.  (`hnd`: catalog versions are unique,
which discovery guarantees.) -/
theorem c6_second_run_applies_nothing (env : RunEnv)
    (ms : List MigrationBase) (applied0 : List MigrationRecord) (ab : Bool)
    (gs : Settings) (st1 : RunState)
    (hnd : (ms.map (·.version)).Nodup)
    (h1 : applyMigrations env ms applied0 ab gs = (st1, none)) :
    ∃ st2, applyMigrations env ms (applied0 ++ st1.inserts) ab gs =
        (st2, none) ∧
      st2.inserts = [] ∧ st2.execed = [] ∧ st2.appliedList = [] ∧
      st2.logs.getLast? = some .infoNoMigrations := by
  -- Unpack the first run.
  cases hv : validateApplied (buildMap applied0) ms with
  | some name =>
    simp only [applyMigrations, hv, Prod.mk.injEq] at h1
    exact absurd h1.2 (by simp)
  | none =>
    simp only [applyMigrations, hv] at h1
    cases hL : applyLoop env (buildMap applied0) gs ab ms emptyState with
    | mk stL e =>
      cases e with
      | some err =>
        rw [hL] at h1
        simp only [finalizeRun, Prod.mk.injEq] at h1
        exact absurd h1.2 (by simp)
      | none =>
        rw [hL] at h1
        simp only [finalizeRun, Prod.mk.injEq] at h1
        have hst1 : st1.inserts = stL.inserts := by rw [← h1.1]
        have hstate := applyLoop_ok_state env (buildMap applied0) gs ab ms
          emptyState stL hL
        simp only [emptyState, List.nil_append] at hstate
        have hNoDiv := applyLoop_ok_no_divergence env (buildMap applied0) gs
          ab ms emptyState stL hL
        -- Pending versions are Nodup and absent from the old ledger.
        have hpnd : ((pendingOf (buildMap applied0) ms).map (·.version)).Nodup :=
          hnd.sublist (List.Sublist.map _ (List.filter_sublist ms))
        have hpend_none : ∀ p ∈ pendingOf (buildMap applied0) ms,
            ledLookup (buildMap applied0) p.version = none := by
          intro p hp
          have := (List.mem_filter.mp hp).2
          simpa [Option.isNone_iff_eq_none] using this
        have hfresh : ∀ r ∈ st1.inserts, ∀ x ∈ buildMap applied0,
            x.version ≠ r.version := by
          rw [hst1, hstate.1]
          intro r hr x hx
          obtain ⟨p, hp, rfl⟩ := List.mem_map.mp hr
          have hnone := hpend_none p hp
          rw [ledLookup, List.find?_eq_none] at hnone
          simpa [rowOf] using hnone x hx
        have hndins : (st1.inserts.map (·.version)).Nodup := by
          rw [hst1, hstate.1]
          simpa [rowOf, Function.comp] using hpnd
        -- The second run's ledger map is the old map plus the new rows.
        have ham1 : buildMap (applied0 ++ st1.inserts) =
            buildMap applied0 ++ st1.inserts :=
          buildMap_append_fresh applied0 st1.inserts hfresh hndins
        -- Every migration is covered in the second run.
        have hcov : ∀ m ∈ ms, ∃ r,
            ledLookup (buildMap applied0 ++ st1.inserts) m.version = some r ∧
            (r.checksum = env.checksumOf (env.fs m.file) ∨ ab = false) := by
          intro m hm
          cases hlk : ledLookup (buildMap applied0) m.version with
          | some a =>
            refine ⟨a, ?_, hNoDiv m hm a hlk⟩
            rw [ledLookup, List.find?_append]
            rw [ledLookup] at hlk
            simp [hlk]
          | none =>
            have hp : m ∈ pendingOf (buildMap applied0) ms := by
              simp [pendingOf, List.mem_filter, hm, hlk]
            refine ⟨rowOf env m, ?_, Or.inl (by simp [rowOf])⟩
            rw [ledLookup, List.find?_append]
            rw [ledLookup] at hlk
            rw [hlk]
            simp only [Option.none_or]
            rw [hst1, hstate.1]
            exact find_rowOf_of_nodup env _ m hp hpnd
        -- The second run passes the deleted-file validation.
        have hv2 : validateApplied (buildMap (applied0 ++ st1.inserts)) ms =
            none := by
          rw [ham1, validateApplied]
          rw [Option.map_eq_none']
          rw [List.find?_eq_none]
          intro r hr
          rcases List.mem_append.mp hr with hr | hr
          · rw [validateApplied, Option.map_eq_none', List.find?_eq_none] at hv
            exact hv r hr
          · rw [hst1, hstate.1] at hr
            obtain ⟨p, hp, rfl⟩ := List.mem_map.mp hr
            have hpm : p ∈ ms := (List.mem_filter.mp hp).1
            simp only [Bool.not_eq_true', Bool.not_eq_false, List.any_eq_true,
              decide_eq_true_eq]
            exact ⟨p, hpm, by simp [rowOf]⟩
        -- The second run only skips.
        obtain ⟨st2', h2', e1, e2, e3⟩ :=
          applyLoop_all_skipped env (buildMap applied0 ++ st1.inserts) gs ab
            ms (by simpa using hcov) emptyState
        refine ⟨{ st2' with logs := st2'.logs ++ [.infoNoMigrations] },
          ?_, by simpa [emptyState] using e1, by simpa [emptyState] using e2,
          by simpa [emptyState] using e3, by simp⟩
        rw [ham1] at hv2
        simp only [applyMigrations, ham1, hv2, h2', finalizeRun]
        have he3 : st2'.appliedList = [] := by simpa [emptyState] using e3
        simp [he3]

/-- Witness for C6: one pending migration, first run applies it, second
run applies nothing. -/
theorem c6_second_run_witness :
    ∃ st2, applyMigrations
        ⟨fun _ => "SELECT 1;".toList, fun c => c, fun _ _ => none,
         fun _ => none⟩
        [⟨1, "1_a.sql".toList⟩]
        ([] ++ (applyMigrations
          ⟨fun _ => "SELECT 1;".toList, fun c => c, fun _ _ => none,
           fun _ => none⟩
          [⟨1, "1_a.sql".toList⟩] [] true []).1.inserts) true [] =
        (st2, none) ∧
      st2.inserts = [] ∧ st2.execed = [] ∧ st2.appliedList = [] ∧
      st2.logs.getLast? = some .infoNoMigrations :=
  c6_second_run_applies_nothing
    ⟨fun _ => "SELECT 1;".toList, fun c => c, fun _ _ => none, fun _ => none⟩
    [⟨1, "1_a.sql".toList⟩] [] true []
    (applyMigrations
      ⟨fun _ => "SELECT 1;".toList, fun c => c, fun _ _ => none,
       fun _ => none⟩
      [⟨1, "1_a.sql".toList⟩] [] true []).1
    (by simp)
    (by rfl)

/-! ## C10: whitespace in returned statements is fully collapsed -/

theorem chain_of_middle (R : Char → Char → Prop) (pre mid post : Str)
    (h : List.Chain' R (pre ++ mid ++ post)) : List.Chain' R mid := by
  rw [List.append_assoc] at h
  exact (List.chain'_append.mp ((List.chain'_append.mp h).2.1)).1

theorem wsCollapsed_mid (pre mid post : Str)
    (h : wsCollapsed (pre ++ mid ++ post)) : wsCollapsed mid := by
  refine ⟨chain_of_middle noTwoWs pre mid post h.1, fun c hc hw => ?_⟩
  exact h.2 c (by simp [hc]) hw

theorem jsTrim_decomp (l : Str) : ∃ pre post, l = pre ++ jsTrim l ++ post := by
  refine ⟨l.takeWhile jsIsWs,
    ((l.dropWhile jsIsWs).reverse.takeWhile jsIsWs).reverse, ?_⟩
  conv_lhs => rw [← List.takeWhile_append_dropWhile (p := jsIsWs) (l := l)]
  rw [List.append_assoc]
  congr 1
  conv_lhs => rw [← List.reverse_reverse (l.dropWhile jsIsWs)]
  conv_lhs =>
    rw [← List.takeWhile_append_dropWhile (p := jsIsWs)
      (l := (l.dropWhile jsIsWs).reverse)]
  rw [List.reverse_append]
  rfl

theorem wsCollapsed_trim (l : Str) (h : wsCollapsed l) :
    wsCollapsed (jsTrim l) := by
  obtain ⟨pre, post, hd⟩ := jsTrim_decomp l
  exact wsCollapsed_mid pre (jsTrim l) post (hd ▸ h)

theorem collapseWsAux_space (l : Str) :
    ∀ (flag : Bool), ∀ c ∈ collapseWsAux flag l, jsIsWs c = true → c = ' ' := by
  induction l with
  | nil => simp [collapseWsAux]
  | cons c0 rest ih =>
    intro flag c hc hw
    by_cases h0 : jsIsWs c0 = true
    · cases flag with
      | true =>
        simp only [collapseWsAux, h0, if_true] at hc
        exact ih true c hc hw
      | false =>
        simp only [collapseWsAux, h0, if_true, Bool.false_eq_true, if_false]
          at hc
        rcases List.mem_cons.mp hc with rfl | hc
        · rfl
        · exact ih true c hc hw
    · simp only [collapseWsAux, h0, Bool.false_eq_true, if_false] at hc
      rcases List.mem_cons.mp hc with rfl | hc
      · exact absurd hw (by simp [h0])
      · exact ih false c hc hw

theorem collapseWsAux_head_nonws (l : Str) (d : Char)
    (h : (collapseWsAux true l).head? = some d) : jsIsWs d = false := by
  induction l with
  | nil => simp [collapseWsAux] at h
  | cons c0 rest ih =>
    by_cases h0 : jsIsWs c0 = true
    · simp only [collapseWsAux, h0, if_true] at h
      exact ih h
    · simp only [collapseWsAux, h0, Bool.false_eq_true, if_false,
        List.head?_cons, Option.some.injEq] at h
      subst h
      simpa using h0

theorem collapseWsAux_chain (l : Str) :
    ∀ flag : Bool, (collapseWsAux flag l).Chain' noTwoWs := by
  induction l with
  | nil => intro flag; simp [collapseWsAux]
  | cons c0 rest ih =>
    intro flag
    by_cases h0 : jsIsWs c0 = true
    · cases flag with
      | true =>
        simp only [collapseWsAux, h0, if_true]
        exact ih true
      | false =>
        simp only [collapseWsAux, h0, if_true, Bool.false_eq_true, if_false]
        rw [List.chain'_cons']
        refine ⟨fun y hy => ?_, ih true⟩
        have := collapseWsAux_head_nonws rest y hy
        simp [noTwoWs, this]
    · simp only [collapseWsAux, h0, Bool.false_eq_true, if_false]
      rw [List.chain'_cons']
      refine ⟨fun y hy => ?_, ih false⟩
      simp [noTwoWs, h0]

theorem wsCollapsed_collapseWs (l : Str) : wsCollapsed (collapseWs l) :=
  ⟨collapseWsAux_chain l false, collapseWsAux_space l false⟩

/-- The splitter invariant: every produced part is whitespace-collapsed
whenever the accumulated current segment plus the remaining input is. -/
theorem sbdAux_wsCollapsed (d : Char) (rem : Str) :
    ∀ (s : PState) (cur : Str) (acc : List Str) (parts : List Str),
    wsCollapsed (cur ++ rem) →
    (∀ p ∈ acc, wsCollapsed p) →
    sbdAux d s cur acc rem = .ok parts →
    ∀ p ∈ parts, wsCollapsed p := by
  induction rem with
  | nil =>
    intro s cur acc parts hG hacc h
    simp only [sbdAux] at h
    split at h
    · exact absurd h (by simp)
    · simp only [Except.ok.injEq] at h
      subst h
      split
      · exact hacc
      · intro p hp
        rcases List.mem_append.mp hp with hp | hp
        · exact hacc p hp
        · rcases List.mem_singleton.mp hp with rfl
          rw [List.append_nil] at hG
          exact wsCollapsed_trim cur hG
  | cons c rest ih =>
    intro s cur acc parts hG hacc h
    have hGassoc : wsCollapsed ((cur ++ [c]) ++ rest) := by
      simpa [List.append_assoc] using hG
    have hGrest : wsCollapsed rest := by
      have : wsCollapsed ((cur ++ [c]) ++ rest ++ []) := by
        simpa using hGassoc
      exact wsCollapsed_mid (cur ++ [c]) rest [] this
    have hGcur : wsCollapsed (jsTrim cur) := by
      refine wsCollapsed_trim cur ?_
      exact wsCollapsed_mid [] cur (c :: rest) (by simpa using hG)
    simp only [sbdAux] at h
    split at h
    · exact ih _ _ _ _ hGassoc hacc h
    · split at h
      · refine ih _ _ _ _ (by simpa using hGrest) ?_ h
        split
        · exact hacc
        · intro p hp
          rcases List.mem_append.mp hp with hp | hp
          · exact hacc p hp
          · rcases List.mem_singleton.mp hp with rfl
            exact hGcur
      · exact ih _ _ _ _ hGassoc hacc h

/-- C10: every statement `sqlQueries` returns has fully collapsed
whitespace — its only whitespace character is the plain space (so it
contains no newline) and no two adjacent characters are both whitespace.
The collapsing pass runs on the whole cleaned content, string literals
included, so quoted content is not preserved byte-for-byte (see the
witness, where `a  b` inside quotes becomes `a b`). -/
theorem c10_statement_whitespace_collapsed (content : Str) (qs : List Str)
    (h : sqlQueries content = .ok qs) :
    ∀ q ∈ qs, (∀ c ∈ q, jsIsWs c = true → c = ' ') ∧
      (∀ c ∈ q, c ≠ '\n') ∧ q.Chain' noTwoWs := by
  have main : ∀ q ∈ qs, wsCollapsed q := by
    by_cases hc0 : content = []
    · simp only [sqlQueries, hc0, if_true, Except.ok.injEq] at h
      subst h
      simp
    · simp only [sqlQueries, hc0, if_false] at h
      cases hw : removeLineComments (removeBlockComments content) with
      | error e => simp only [hw] at h; exact absurd h (by simp)
      | ok w =>
        simp only [hw] at h
        split at h
        · simp only [Except.ok.injEq] at h
          subst h
          simp
        · have hcl : wsCollapsed (jsTrim (collapseWs (removeSetLines w))) :=
            wsCollapsed_trim _ (wsCollapsed_collapseWs (removeSetLines w))
          exact sbdAux_wsCollapsed ';' (jsTrim (collapseWs (removeSetLines w)))
            pstate0 [] [] qs hcl (by simp) h
  intro q hq
  obtain ⟨hch, hsp⟩ := (main q hq).symm.imp id id
  refine ⟨hch, fun c hc hnl => ?_, hsp⟩
  have : c = ' ' := hch c hc (by subst hnl; rfl)
  subst hnl
  simp at this

/-- Witness for C10: two spaces inside a string literal collapse to one
in the returned statement; the statement satisfies the collapsed-
whitespace properties. -/
theorem c10_statement_whitespace_witness :
    sqlQueries (tildeQuoted "SELECT ~a  b~;") =
      .ok [tildeQuoted "SELECT ~a b~"] ∧
    ∀ q ∈ [tildeQuoted "SELECT ~a b~"],
      (∀ c ∈ q, jsIsWs c = true → c = ' ') ∧
      (∀ c ∈ q, c ≠ '\n') ∧ q.Chain' noTwoWs :=
  ⟨rfl, c10_statement_whitespace_collapsed (tildeQuoted "SELECT ~a  b~;")
    [tildeQuoted "SELECT ~a b~"] rfl⟩

/-- Witness for C7 at the single-quote delimiter in the canonical
in-string state. -/
theorem c7_doubled_quote_escape_witness :
    (('\'' : Char) ≠ '\\' →
      processChar '\'' (some '\'') ⟨true, some '\'', false⟩ =
        (true, { (⟨true, some '\'', false⟩ : PState) with escaped := true })) ∧
    sqlQueries (tildeQuoted "SELECT ~it~~s ok~;") =
      .ok [tildeQuoted "SELECT ~it~~s ok~"] :=
  c7_doubled_quote_escape ⟨true, some '\'', false⟩ '\'' rfl rfl rfl

